import Mathlib

/-!
# LorentzSim — verification of the core simulation against its specification

A shallow embedding, over `ℚ`, of the core of the LorentzSim repository:
the RK4 physics step (`stepPhysics`), the bounded trajectory history, the
reset / parameter-update handling, the 3D-to-screen projection (`project`)
and the Liang–Barsky style axis-label clipping (`getLabelPosition`).

The source stores all numbers as JavaScript floating-point values; the
embedding idealises them as rationals so that the structural and algebraic
claims of the specification can be stated and decided exactly.  The camera
angles enter the projection only through `Math.cos`/`Math.sin`; the
embedding takes those four trigonometric values (and the zoom) as the
camera's components, so everything downstream of the trigonometry is
embedded faithfully.
-/

namespace LorentzSim

/-- Structure `Vector3` of `types.ts`: an ordered triple of (idealised) floats. -/
structure Vector3 where
  x : ℚ
  y : ℚ
  z : ℚ
  deriving DecidableEq, Repr

/-- Structure `SimulationParams` of `types.ts`. -/
structure SimulationParams where
  mass : ℚ
  charge : ℚ
  velocity : Vector3
  bField : Vector3
  deriving DecidableEq, Repr

/-- Structure `SimulationState` of `types.ts`. -/
structure SimulationState where
  position : Vector3
  velocity : Vector3
  history : List Vector3
  time : ℚ
  deriving DecidableEq, Repr

/-- Componentwise addition on `Vector3` (used to phrase the spec's formulas). -/
instance : Add Vector3 := ⟨fun a b => ⟨a.x + b.x, a.y + b.y, a.z + b.z⟩⟩

/-- Scalar multiplication on `Vector3` (used to phrase the spec's formulas). -/
instance : SMul ℚ Vector3 := ⟨fun c v => ⟨c * v.x, c * v.y, c * v.z⟩⟩

/-- Componentwise division of a `Vector3` by a scalar. -/
instance : HDiv Vector3 ℚ Vector3 := ⟨fun v c => ⟨v.x / c, v.y / c, v.z / c⟩⟩

@[simp] theorem add_x (a b : Vector3) : (a + b).x = a.x + b.x := rfl
@[simp] theorem add_y (a b : Vector3) : (a + b).y = a.y + b.y := rfl
@[simp] theorem add_z (a b : Vector3) : (a + b).z = a.z + b.z := rfl
@[simp] theorem smul_x (c : ℚ) (v : Vector3) : (c • v).x = c * v.x := rfl
@[simp] theorem smul_y (c : ℚ) (v : Vector3) : (c • v).y = c * v.y := rfl
@[simp] theorem smul_z (c : ℚ) (v : Vector3) : (c • v).z = c * v.z := rfl
@[simp] theorem div_x (v : Vector3) (c : ℚ) : (v / c).x = v.x / c := rfl
@[simp] theorem div_y (v : Vector3) (c : ℚ) : (v / c).y = v.y / c := rfl
@[simp] theorem div_z (v : Vector3) (c : ℚ) : (v / c).z = v.z / c := rfl

theorem Vector3.ext_comp {a b : Vector3} (hx : a.x = b.x) (hy : a.y = b.y)
    (hz : a.z = b.z) : a = b := by
  cases a; cases b; simp_all

/-- Constant `BOUNDS_LIMIT = 320` (SimulationCanvas, line 12). -/
def BOUNDS_LIMIT : ℚ := 320

/-- Constant `TRAIL_LENGTH = 3000` (SimulationCanvas, line 13). -/
def TRAIL_LENGTH : ℕ := 3000

/-- Constant `DT = 0.05` (SimulationCanvas, line 14); `0.05 = 1/20` idealised in `ℚ`. -/
def DT : ℚ := 1 / 20

/-- All position components within the domain limit: the negation of the
bounds check of `stepPhysics` (lines 64–67). -/
def inBounds (r : Vector3) : Prop :=
  |r.x| ≤ BOUNDS_LIMIT ∧ |r.y| ≤ BOUNDS_LIMIT ∧ |r.z| ≤ BOUNDS_LIMIT

instance (r : Vector3) : Decidable (inBounds r) := by
  unfold inBounds; infer_instance

/-- Inner function `accel` of `stepPhysics` (lines 72–79):
`a(v) = (q/m) * (v x B)`, written componentwise exactly as the source. -/
def accel (p : SimulationParams) (vel : Vector3) : Vector3 :=
  let qm := p.charge / p.mass
  ⟨qm * (vel.y * p.bField.z - vel.z * p.bField.y),
   qm * (vel.z * p.bField.x - vel.x * p.bField.z),
   qm * (vel.x * p.bField.y - vel.y * p.bField.x)⟩

/-- History update of `stepPhysics` (lines 117–120): `push` the new point,
then `shift` (drop the oldest entry) if the capacity is exceeded. -/
def pushHistory (h : List Vector3) (p : Vector3) : List Vector3 :=
  let h' := h ++ [p]
  if TRAIL_LENGTH < h'.length then h'.tail else h'

/-- Function `stepPhysics` (lines 60–121).  The source mutates `stateRef.current`
and calls `onStop()` when the bounds check fails; the embedding returns
`none` for the halt signal and `some` of the updated state otherwise. -/
def stepPhysics (p : SimulationParams) (s : SimulationState) :
    Option SimulationState :=
  if BOUNDS_LIMIT < |s.position.x| ∨ BOUNDS_LIMIT < |s.position.y| ∨
      BOUNDS_LIMIT < |s.position.z| then
    none
  else
    let r := s.position
    let v := s.velocity
    let a1 := accel p v
    let k1v : Vector3 := ⟨a1.x * DT, a1.y * DT, a1.z * DT⟩
    let k1r : Vector3 := ⟨v.x * DT, v.y * DT, v.z * DT⟩
    let v2 : Vector3 :=
      ⟨v.x + k1v.x * (1/2), v.y + k1v.y * (1/2), v.z + k1v.z * (1/2)⟩
    let a2 := accel p v2
    let k2v : Vector3 := ⟨a2.x * DT, a2.y * DT, a2.z * DT⟩
    let k2r : Vector3 := ⟨v2.x * DT, v2.y * DT, v2.z * DT⟩
    let v3 : Vector3 :=
      ⟨v.x + k2v.x * (1/2), v.y + k2v.y * (1/2), v.z + k2v.z * (1/2)⟩
    let a3 := accel p v3
    let k3v : Vector3 := ⟨a3.x * DT, a3.y * DT, a3.z * DT⟩
    let k3r : Vector3 := ⟨v3.x * DT, v3.y * DT, v3.z * DT⟩
    let v4 : Vector3 := ⟨v.x + k3v.x, v.y + k3v.y, v.z + k3v.z⟩
    let a4 := accel p v4
    let k4v : Vector3 := ⟨a4.x * DT, a4.y * DT, a4.z * DT⟩
    let k4r : Vector3 := ⟨v4.x * DT, v4.y * DT, v4.z * DT⟩
    let newV : Vector3 :=
      ⟨v.x + (k1v.x + 2 * k2v.x + 2 * k3v.x + k4v.x) / 6,
       v.y + (k1v.y + 2 * k2v.y + 2 * k3v.y + k4v.y) / 6,
       v.z + (k1v.z + 2 * k2v.z + 2 * k3v.z + k4v.z) / 6⟩
    let newR : Vector3 :=
      ⟨r.x + (k1r.x + 2 * k2r.x + 2 * k3r.x + k4r.x) / 6,
       r.y + (k1r.y + 2 * k2r.y + 2 * k3r.y + k4r.y) / 6,
       r.z + (k1r.z + 2 * k2r.z + 2 * k3r.z + k4r.z) / 6⟩
    some { position := newR, velocity := newV,
           history := pushHistory s.history newR,
           time := s.time + DT }

/-- The frame driver's view of one step (the `animate`/`onStop` pairing):
on a halt the stored state is left untouched and the halt flag is raised. -/
def stepOrHalt (p : SimulationParams) (s : SimulationState) :
    SimulationState × Bool :=
  match stepPhysics p s with
  | none => (s, true)
  | some s' => (s', false)

/-- Runs `n` consecutive physics steps; `none` as soon as one step halts. -/
def runSteps (p : SimulationParams) : ℕ → SimulationState → Option SimulationState
  | 0, s => some s
  | n + 1, s =>
    match stepPhysics p s with
    | none => none
    | some s' => runSteps p n s'

/-- The `params` update effect of `SimulationCanvas` (lines 38–48): when the
incoming `params.velocity` differs componentwise from the previous one, only
the state's `velocity` is overwritten; nothing else happens. -/
def applyParamsUpdate (prev cur : SimulationParams) (s : SimulationState) :
    SimulationState :=
  if prev.velocity.x ≠ cur.velocity.x ∨ prev.velocity.y ≠ cur.velocity.y ∨
      prev.velocity.z ≠ cur.velocity.z then
    { s with velocity := cur.velocity }
  else s

/-- Function `resetSimulation` (lines 50–57): the wholesale replacement of the state
(also the initial state of the component, lines 22–27). -/
def resetSimulation (p : SimulationParams) : SimulationState :=
  { position := ⟨0, 0, 0⟩, velocity := p.velocity, history := [], time := 0 }

/-- The camera as the projection consumes it: the source reads
`CameraState`'s `pitch`/`yaw` only through `Math.cos`/`Math.sin`
(lines 127–134), so the embedding carries those four values and the zoom. -/
structure Cam where
  cosY : ℚ
  sinY : ℚ
  cosP : ℚ
  sinP : ℚ
  zoom : ℚ
  deriving DecidableEq, Repr

/-- The result record `{x, y, scale}` of `project`. -/
structure Projected where
  x : ℚ
  y : ℚ
  scale : ℚ
  deriving DecidableEq, Repr

/-- Function `project` (lines 124–153), written exactly as the source. -/
def project (p : Vector3) (cam : Cam) (width height : ℚ) : Projected :=
  let x1 := p.x * cam.cosY - p.y * cam.sinY
  let y1 := p.x * cam.sinY + p.y * cam.cosY
  let z1 := p.z
  let y2 := y1 * cam.cosP - z1 * cam.sinP
  let z2 := y1 * cam.sinP + z1 * cam.cosP
  let fov : ℚ := 600
  let cameraDistance : ℚ := 400
  let depth := cameraDistance + y2
  let perspective := fov / max 1 depth
  let scale := perspective * cam.zoom
  let centerX := width / 2 - 100
  { x := x1 * scale + centerX, y := -z2 * scale + height / 2, scale := scale }

/-- Yaw rotation about the vertical axis, as §4.2 of the spec describes it. -/
def yawRot (cam : Cam) (p : Vector3) : Vector3 :=
  ⟨p.x * cam.cosY - p.y * cam.sinY, p.x * cam.sinY + p.y * cam.cosY, p.z⟩

/-- Pitch rotation about the resulting horizontal axis (spec §4.2). -/
def pitchRot (cam : Cam) (p : Vector3) : Vector3 :=
  ⟨p.x, p.y * cam.cosP - p.z * cam.sinP, p.y * cam.sinP + p.z * cam.cosP⟩

/-- The projection exactly as the spec's contract words it: view point from
yaw-then-pitch rotation, `depth = 400 + viewY`,
`scale = (600 / max(1, depth)) · zoom`, screen coordinates with the 100 px
horizontal offset. -/
def projectSpec (p : Vector3) (cam : Cam) (width height : ℚ) : Projected :=
  let v := pitchRot cam (yawRot cam p)
  let depth := 400 + v.y
  let scale := (600 / max 1 depth) * cam.zoom
  { x := v.x * scale + width / 2 - 100,
    y := -v.z * scale + height / 2,
    scale := scale }

/-- One iteration of the Liang–Barsky loop of `getLabelPosition`
(lines 170–183), acting on the current `(t0, t1)` interval; `none` is the
source's early `return null`. -/
def clipEdge (p q : ℚ) (t : ℚ × ℚ) : Option (ℚ × ℚ) :=
  if p = 0 then
    if q < 0 then none else some t
  else if p < 0 then
    if t.2 < q / p then none
    else if t.1 < q / p then some (q / p, t.2) else some t
  else
    if q / p < t.1 then none
    else if q / p < t.2 then some (t.1, q / p) else some t

/-- The four-edge loop of `getLabelPosition`, one `clipEdge` per entry of
the source's `p`/`q` arrays (lines 167–183). -/
def clipEdges : List (ℚ × ℚ) → ℚ × ℚ → Option (ℚ × ℚ)
  | [], t => some t
  | e :: es, t =>
    match clipEdge e.1 e.2 t with
    | none => none
    | some t' => clipEdges es t'

/-- The `p`/`q` pairs of lines 167–168 (padding 25, inset rectangle
`[25, w − 25] × [25, h − 25]`), built from the two projected endpoints. -/
def labelEdges (p0 p1 : Projected) (width height : ℚ) : List (ℚ × ℚ) :=
  [(-(p1.x - p0.x), p0.x - 25),
   (p1.x - p0.x, (width - 25) - p0.x),
   (-(p1.y - p0.y), p0.y - 25),
   (p1.y - p0.y, (height - 25) - p0.y)]

/-- The clipping part of `getLabelPosition` (lines 159–190), on the two
already-projected endpoints. -/
def labelClip (p0 p1 : Projected) (width height : ℚ) : Option (ℚ × ℚ) :=
  match clipEdges (labelEdges p0 p1 width height) (0, 1) with
  | none => none
  | some (t0, t1) =>
    if t1 < t0 then none
    else some (p0.x + t1 * (p1.x - p0.x), p0.y + t1 * (p1.y - p0.y))

/-- Function `getLabelPosition` (lines 155–191). -/
def getLabelPosition (origin axisTip : Vector3) (cam : Cam)
    (width height : ℚ) : Option (ℚ × ℚ) :=
  labelClip (project origin cam width height) (project axisTip cam width height)
    width height

/-- The parameter `t` of the projected line keeps the point inside the
25px-inset rectangle and inside the segment `[0, 1]`: the admissible set of
the Liang–Barsky clip, phrased through the same `p·t ≤ q` constraints the
source's loop narrows by. -/
def labelSat (p0 p1 : Projected) (width height t : ℚ) : Prop :=
  0 ≤ t ∧ t ≤ 1 ∧ ∀ e ∈ labelEdges p0 p1 width height, e.1 * t ≤ e.2

/-- Predicate `labelSat` at the two projected endpoints of `getLabelPosition`. -/
def labelAdmissible (origin axisTip : Vector3) (cam : Cam)
    (width height t : ℚ) : Prop :=
  labelSat (project origin cam width height) (project axisTip cam width height)
    width height t

/-- Cross product of two vectors (spec §3: pure `Vector3` arithmetic). -/
def cross (u v : Vector3) : Vector3 :=
  ⟨u.y * v.z - u.z * v.y, u.z * v.x - u.x * v.z, u.x * v.y - u.y * v.x⟩

/-- The Lorentz acceleration exactly as the spec's contract words it:
`a(v) = (q/m) · (v × B)`. -/
def lorentzAccel (p : SimulationParams) (v : Vector3) : Vector3 :=
  (p.charge / p.mass) • cross v p.bField

/-- The RK4 combination exactly as §4.1 of the spec words it: four stages
with `kiv = ai·dt`, `kir = vi·dt`, evaluation points `v`, `v + k1v/2`,
`v + k2v/2`, `v + k3v`, and the `1/6`-weighted combination.  Returns
`(v', r')`. -/
def rk4SpecNext (p : SimulationParams) (r v : Vector3) : Vector3 × Vector3 :=
  let a := lorentzAccel p
  let k1v := DT • a v
  let k1r := DT • v
  let v2 := v + (1/2 : ℚ) • k1v
  let k2v := DT • a v2
  let k2r := DT • v2
  let v3 := v + (1/2 : ℚ) • k2v
  let k3v := DT • a v3
  let k3r := DT • v3
  let v4 := v + k3v
  let k4v := DT • a v4
  let k4r := DT • v4
  (v + (k1v + (2 : ℚ) • k2v + (2 : ℚ) • k3v + k4v) / (6 : ℚ),
   r + (k1r + (2 : ℚ) • k2r + (2 : ℚ) • k3r + k4r) / (6 : ℚ))

/-- The velocity half of the RK4 update of `stepPhysics` (lines 82–105),
extracted so that speed evolution can be iterated independently of the
position and the history. -/
def stepV (p : SimulationParams) (v : Vector3) : Vector3 :=
  let a1 := accel p v
  let k1v : Vector3 := ⟨a1.x * DT, a1.y * DT, a1.z * DT⟩
  let v2 : Vector3 :=
    ⟨v.x + k1v.x * (1/2), v.y + k1v.y * (1/2), v.z + k1v.z * (1/2)⟩
  let a2 := accel p v2
  let k2v : Vector3 := ⟨a2.x * DT, a2.y * DT, a2.z * DT⟩
  let v3 : Vector3 :=
    ⟨v.x + k2v.x * (1/2), v.y + k2v.y * (1/2), v.z + k2v.z * (1/2)⟩
  let a3 := accel p v3
  let k3v : Vector3 := ⟨a3.x * DT, a3.y * DT, a3.z * DT⟩
  let v4 : Vector3 := ⟨v.x + k3v.x, v.y + k3v.y, v.z + k3v.z⟩
  let a4 := accel p v4
  let k4v : Vector3 := ⟨a4.x * DT, a4.y * DT, a4.z * DT⟩
  ⟨v.x + (k1v.x + 2 * k2v.x + 2 * k3v.x + k4v.x) / 6,
   v.y + (k1v.y + 2 * k2v.y + 2 * k3v.y + k4v.y) / 6,
   v.z + (k1v.z + 2 * k2v.z + 2 * k3v.z + k4v.z) / 6⟩

/-- Squared euclidean magnitude of a vector (the square of the speed). -/
def normSq (v : Vector3) : ℚ := v.x ^ 2 + v.y ^ 2 + v.z ^ 2

/-- Dot product (used to state perpendicularity of a configuration). -/
def dot (u v : Vector3) : ℚ := u.x * v.x + u.y * v.y + u.z * v.z

/-! ## Helper lemmas -/

theorem stepPhysics_out (p : SimulationParams) (s : SimulationState)
    (hout : BOUNDS_LIMIT < |s.position.x| ∨ BOUNDS_LIMIT < |s.position.y| ∨
      BOUNDS_LIMIT < |s.position.z|) :
    stepPhysics p s = none ∧ stepOrHalt p s = (s, true) := by
  have h1 : stepPhysics p s = none := by
    unfold stepPhysics
    rw [if_pos hout]
  exact ⟨h1, by unfold stepOrHalt; rw [h1]⟩

theorem not_out_of_inBounds {s : SimulationState} (hin : inBounds s.position) :
    ¬(BOUNDS_LIMIT < |s.position.x| ∨ BOUNDS_LIMIT < |s.position.y| ∨
      BOUNDS_LIMIT < |s.position.z|) := by
  push_neg
  exact hin

/-! ## C2 — out-of-bounds step halts and leaves the state unchanged -/

/-- C2: for every state in which some position component's absolute value
exceeds 320, `stepPhysics` raises the halt signal (the `none` outcome,
standing for the source's `onStop(); return`) instead of producing a new
state, and the driver keeps the entire state — position, velocity, history,
time — unchanged. -/
theorem stepPhysics_halt_out_of_bounds (p : SimulationParams)
    (s : SimulationState)
    (hout : BOUNDS_LIMIT < |s.position.x| ∨ BOUNDS_LIMIT < |s.position.y| ∨
      BOUNDS_LIMIT < |s.position.z|) :
    stepPhysics p s = none ∧ stepOrHalt p s = (s, true) :=
  stepPhysics_out p s hout

/-- Witness for C2 at the concrete state with position `(321, 0, 0)`. -/
theorem stepPhysics_halt_out_of_bounds_witness :
    (BOUNDS_LIMIT < |((⟨⟨321, 0, 0⟩, ⟨0, 0, 0⟩, [], 0⟩ :
        SimulationState)).position.x| ∨
      BOUNDS_LIMIT < |((⟨⟨321, 0, 0⟩, ⟨0, 0, 0⟩, [], 0⟩ :
        SimulationState)).position.y| ∨
      BOUNDS_LIMIT < |((⟨⟨321, 0, 0⟩, ⟨0, 0, 0⟩, [], 0⟩ :
        SimulationState)).position.z|) ∧
    stepPhysics ⟨1, 0, ⟨0, 0, 0⟩, ⟨0, 0, 0⟩⟩ ⟨⟨321, 0, 0⟩, ⟨0, 0, 0⟩, [], 0⟩ =
      none ∧
    stepOrHalt ⟨1, 0, ⟨0, 0, 0⟩, ⟨0, 0, 0⟩⟩ ⟨⟨321, 0, 0⟩, ⟨0, 0, 0⟩, [], 0⟩ =
      (⟨⟨321, 0, 0⟩, ⟨0, 0, 0⟩, [], 0⟩, true) :=
  ⟨by with_unfolding_all decide,
    (stepPhysics_halt_out_of_bounds ⟨1, 0, ⟨0, 0, 0⟩, ⟨0, 0, 0⟩⟩
      ⟨⟨321, 0, 0⟩, ⟨0, 0, 0⟩, [], 0⟩ (by with_unfolding_all decide)).1,
    (stepPhysics_halt_out_of_bounds ⟨1, 0, ⟨0, 0, 0⟩, ⟨0, 0, 0⟩⟩
      ⟨⟨321, 0, 0⟩, ⟨0, 0, 0⟩, [], 0⟩ (by with_unfolding_all decide)).2⟩

/-! ## C5 — the projection formula -/

/-- C5: `project` is exactly the spec's pipeline — yaw rotation, then pitch
rotation, `depth = 400 + viewY`, `scale = (600 / max(1, depth)) · zoom`,
`screenX = viewX·scale + width/2 − 100`, `screenY = −viewZ·scale + height/2`
— and the divisor `max 1 depth` is never below 1. -/
theorem project_formula (p : Vector3) (cam : Cam) (w h : ℚ) :
    project p cam w h = projectSpec p cam w h ∧
    1 ≤ max 1 (400 + (pitchRot cam (yawRot cam p)).y) := by
  constructor
  · simp only [project, projectSpec, yawRot, pitchRot]
    rw [Projected.mk.injEq]
    refine ⟨by ring, by ring, by ring⟩
  · exact le_max_left 1 _

/-! ## C3 — what a velocity change actually does (corrected) -/

/-- Counterexample to C3 as stated: a change of `params.velocity` from
`(5,0,2)` to `(1,0,0)` on a mid-run state keeps the old position, history
and time — only the velocity is overwritten — so the state is *not*
replaced wholesale as by an explicit reset. -/
theorem velocity_change_not_wholesale_reset :
    applyParamsUpdate ⟨2, 1, ⟨5, 0, 2⟩, ⟨0, 0, 2⟩⟩ ⟨2, 1, ⟨1, 0, 0⟩, ⟨0, 0, 2⟩⟩
        ⟨⟨1, 1, 1⟩, ⟨5, 0, 2⟩, [⟨1, 1, 1⟩], 1/20⟩ =
      ⟨⟨1, 1, 1⟩, ⟨1, 0, 0⟩, [⟨1, 1, 1⟩], 1/20⟩ ∧
    resetSimulation ⟨2, 1, ⟨1, 0, 0⟩, ⟨0, 0, 2⟩⟩ =
      ⟨⟨0, 0, 0⟩, ⟨1, 0, 0⟩, [], 0⟩ ∧
    ((⟨⟨1, 1, 1⟩, ⟨1, 0, 0⟩, [⟨1, 1, 1⟩], 1/20⟩ : SimulationState) =
        ⟨⟨0, 0, 0⟩, ⟨1, 0, 0⟩, [], 0⟩) = False := by
  refine ⟨by with_unfolding_all decide, by with_unfolding_all decide, by with_unfolding_all decide⟩

/-- C3 as amended: a change to `params.velocity` (and only to velocity —
mass, charge and `bField` changes leave the state untouched) replaces *only*
the state's velocity with the new `params.velocity`, preserving position,
history and time; the wholesale replacement
`{position: origin, velocity: params.velocity, history: empty, time: 0}`
is what the explicit reset operation produces. -/
theorem velocity_change_updates_velocity_only (prev cur : SimulationParams)
    (s : SimulationState) (hv : prev.velocity ≠ cur.velocity) :
    applyParamsUpdate prev cur s = { s with velocity := cur.velocity } ∧
    (applyParamsUpdate prev cur s).position = s.position ∧
    (applyParamsUpdate prev cur s).history = s.history ∧
    (applyParamsUpdate prev cur s).time = s.time ∧
    (∀ prev' cur' : SimulationParams, ∀ s' : SimulationState,
      prev'.velocity = cur'.velocity → applyParamsUpdate prev' cur' s' = s') ∧
    resetSimulation cur =
      { position := ⟨0, 0, 0⟩, velocity := cur.velocity, history := [],
        time := 0 } := by
  have hcomp : prev.velocity.x ≠ cur.velocity.x ∨
      prev.velocity.y ≠ cur.velocity.y ∨ prev.velocity.z ≠ cur.velocity.z := by
    by_contra hc
    push_neg at hc
    exact hv (Vector3.ext_comp hc.1 hc.2.1 hc.2.2)
  have hupd : applyParamsUpdate prev cur s = { s with velocity := cur.velocity } := by
    unfold applyParamsUpdate
    rw [if_pos hcomp]
  refine ⟨hupd, by rw [hupd], by rw [hupd], by rw [hupd], ?_, rfl⟩
  intro prev' cur' s' hveq
  unfold applyParamsUpdate
  rw [if_neg]
  push_neg
  exact ⟨congrArg Vector3.x hveq, congrArg Vector3.y hveq,
    congrArg Vector3.z hveq⟩

/-- Witness for the amended C3 at concrete parameters differing in velocity. -/
theorem velocity_change_updates_velocity_only_witness :
    ((⟨5, 0, 2⟩ : Vector3) = ⟨1, 0, 0⟩) = False ∧
    (applyParamsUpdate ⟨2, 1, ⟨5, 0, 2⟩, ⟨0, 0, 2⟩⟩
        ⟨2, 1, ⟨1, 0, 0⟩, ⟨0, 0, 2⟩⟩ ⟨⟨1, 1, 1⟩, ⟨5, 0, 2⟩, [⟨1, 1, 1⟩], 1/20⟩ =
      { (⟨⟨1, 1, 1⟩, ⟨5, 0, 2⟩, [⟨1, 1, 1⟩], 1/20⟩ : SimulationState) with
          velocity := (⟨2, 1, ⟨1, 0, 0⟩, ⟨0, 0, 2⟩⟩ : SimulationParams).velocity } ∧
    (applyParamsUpdate ⟨2, 1, ⟨5, 0, 2⟩, ⟨0, 0, 2⟩⟩
        ⟨2, 1, ⟨1, 0, 0⟩, ⟨0, 0, 2⟩⟩
        ⟨⟨1, 1, 1⟩, ⟨5, 0, 2⟩, [⟨1, 1, 1⟩], 1/20⟩).position = ⟨1, 1, 1⟩ ∧
    (applyParamsUpdate ⟨2, 1, ⟨5, 0, 2⟩, ⟨0, 0, 2⟩⟩
        ⟨2, 1, ⟨1, 0, 0⟩, ⟨0, 0, 2⟩⟩
        ⟨⟨1, 1, 1⟩, ⟨5, 0, 2⟩, [⟨1, 1, 1⟩], 1/20⟩).history = [⟨1, 1, 1⟩] ∧
    (applyParamsUpdate ⟨2, 1, ⟨5, 0, 2⟩, ⟨0, 0, 2⟩⟩
        ⟨2, 1, ⟨1, 0, 0⟩, ⟨0, 0, 2⟩⟩
        ⟨⟨1, 1, 1⟩, ⟨5, 0, 2⟩, [⟨1, 1, 1⟩], 1/20⟩).time = 1/20 ∧
    (∀ prev' cur' : SimulationParams, ∀ s' : SimulationState,
      prev'.velocity = cur'.velocity → applyParamsUpdate prev' cur' s' = s') ∧
    resetSimulation ⟨2, 1, ⟨1, 0, 0⟩, ⟨0, 0, 2⟩⟩ =
      { position := ⟨0, 0, 0⟩,
        velocity := (⟨2, 1, ⟨1, 0, 0⟩, ⟨0, 0, 2⟩⟩ : SimulationParams).velocity,
        history := [], time := 0 }) :=
  ⟨by with_unfolding_all decide,
    velocity_change_updates_velocity_only ⟨2, 1, ⟨5, 0, 2⟩, ⟨0, 0, 2⟩⟩
      ⟨2, 1, ⟨1, 0, 0⟩, ⟨0, 0, 2⟩⟩ ⟨⟨1, 1, 1⟩, ⟨5, 0, 2⟩, [⟨1, 1, 1⟩], 1/20⟩
      (by with_unfolding_all decide)⟩

/-! ## C10 — the bounds check inspects only the pre-step position -/

/-- C10: for every state whose position components all have absolute value
at most 320, `stepPhysics` completes fully and appends the new position to
the history — there is no post-step bounds check, so the stored state and
history can contain out-of-bounds points — and whenever the produced
position is out of bounds, it is only the *following* step that raises the
halt signal (leaving that state unchanged). -/
theorem bounds_check_prestep_only (p : SimulationParams) (s : SimulationState)
    (hin : inBounds s.position) :
    (∃ s', stepPhysics p s = some s' ∧
      s'.history = pushHistory s.history s'.position) ∧
    (∀ s' : SimulationState, stepPhysics p s = some s' →
      (BOUNDS_LIMIT < |s'.position.x| ∨ BOUNDS_LIMIT < |s'.position.y| ∨
        BOUNDS_LIMIT < |s'.position.z|) →
      stepPhysics p s' = none ∧ stepOrHalt p s' = (s', true)) := by
  refine ⟨?_, fun s' _ hout => stepPhysics_out p s' hout⟩
  unfold stepPhysics
  rw [if_neg (not_out_of_inBounds hin)]
  exact ⟨_, rfl, rfl⟩

/-- Witness for C10: from the in-bounds position `(320, 0, 0)` with velocity
`(100, 0, 0)` and zero force, the step succeeds and stores the out-of-bounds
position `(325, 0, 0)` (and appends it to the history); the halt comes only
from the next step. -/
theorem bounds_check_prestep_only_witness :
    inBounds (⟨320, 0, 0⟩ : Vector3) ∧
    stepPhysics ⟨1, 0, ⟨0, 0, 0⟩, ⟨0, 0, 0⟩⟩ ⟨⟨320, 0, 0⟩, ⟨100, 0, 0⟩, [], 0⟩ =
      some ⟨⟨325, 0, 0⟩, ⟨100, 0, 0⟩, [⟨325, 0, 0⟩], 1/20⟩ ∧
    BOUNDS_LIMIT < |(325 : ℚ)| ∧
    ((∃ s', stepPhysics ⟨1, 0, ⟨0, 0, 0⟩, ⟨0, 0, 0⟩⟩
        ⟨⟨320, 0, 0⟩, ⟨100, 0, 0⟩, [], 0⟩ = some s' ∧
        s'.history = pushHistory
          (⟨⟨320, 0, 0⟩, ⟨100, 0, 0⟩, [], 0⟩ : SimulationState).history
          s'.position) ∧
      (∀ s' : SimulationState,
        stepPhysics ⟨1, 0, ⟨0, 0, 0⟩, ⟨0, 0, 0⟩⟩
          ⟨⟨320, 0, 0⟩, ⟨100, 0, 0⟩, [], 0⟩ = some s' →
        (BOUNDS_LIMIT < |s'.position.x| ∨ BOUNDS_LIMIT < |s'.position.y| ∨
          BOUNDS_LIMIT < |s'.position.z|) →
        stepPhysics ⟨1, 0, ⟨0, 0, 0⟩, ⟨0, 0, 0⟩⟩ s' = none ∧
        stepOrHalt ⟨1, 0, ⟨0, 0, 0⟩, ⟨0, 0, 0⟩⟩ s' = (s', true))) :=
  ⟨by with_unfolding_all decide, by with_unfolding_all decide,
    by with_unfolding_all decide,
    bounds_check_prestep_only ⟨1, 0, ⟨0, 0, 0⟩, ⟨0, 0, 0⟩⟩
      ⟨⟨320, 0, 0⟩, ⟨100, 0, 0⟩, [], 0⟩ (by with_unfolding_all decide)⟩

/-! ## C4 — bounded FIFO history -/

theorem pushHistory_length_le (h : List Vector3) (x : Vector3)
    (hh : h.length ≤ TRAIL_LENGTH) :
    (pushHistory h x).length ≤ TRAIL_LENGTH := by
  show (if TRAIL_LENGTH < (h ++ [x]).length then (h ++ [x]).tail
    else h ++ [x]).length ≤ TRAIL_LENGTH
  by_cases hc : TRAIL_LENGTH < (h ++ [x]).length
  · rw [if_pos hc, List.length_tail, List.length_append,
      List.length_singleton]
    omega
  · rw [if_neg hc]
    omega

/-- Starting from an empty history, pushing the produced positions
`ps` one by one leaves exactly the last 3000 of them: the fold drops the
`ps.length − 3000` oldest entries, so the oldest retained point is the one
produced by step number `step_count − 3000` (steps numbered from 0). -/
theorem foldl_pushHistory (ps : List Vector3) :
    List.foldl pushHistory [] ps = ps.drop (ps.length - TRAIL_LENGTH) := by
  induction ps using List.reverseRecOn with
  | nil => simp
  | append_singleton ps p ih =>
    rw [List.foldl_append, List.foldl_cons, List.foldl_nil, ih]
    have ht : 1 ≤ TRAIL_LENGTH := by decide
    by_cases hlen : ps.length < TRAIL_LENGTH
    · have h0 : ps.length - TRAIL_LENGTH = 0 := by omega
      rw [h0, List.drop_zero]
      show (if TRAIL_LENGTH < (ps ++ [p]).length then (ps ++ [p]).tail
        else ps ++ [p]) = (ps ++ [p]).drop ((ps ++ [p]).length - TRAIL_LENGTH)
      have hlen2 : (ps ++ [p]).length = ps.length + 1 := by
        rw [List.length_append, List.length_singleton]
      rw [if_neg (by rw [hlen2]; omega), hlen2]
      have h1 : ps.length + 1 - TRAIL_LENGTH = 0 := by omega
      rw [h1, List.drop_zero]
    · push_neg at hlen
      have hd : (ps.drop (ps.length - TRAIL_LENGTH)).length = TRAIL_LENGTH := by
        rw [List.length_drop]
        omega
      show (if TRAIL_LENGTH <
          (ps.drop (ps.length - TRAIL_LENGTH) ++ [p]).length then
          (ps.drop (ps.length - TRAIL_LENGTH) ++ [p]).tail
        else ps.drop (ps.length - TRAIL_LENGTH) ++ [p]) =
        (ps ++ [p]).drop ((ps ++ [p]).length - TRAIL_LENGTH)
      rw [if_pos (by rw [List.length_append, hd, List.length_singleton]; omega)]
      rw [← List.drop_one]
      rw [List.drop_append_of_le_length (by rw [hd]; omega)]
      rw [List.drop_drop]
      rw [List.length_append, List.length_singleton]
      have hk : ps.length + 1 - TRAIL_LENGTH = ps.length - TRAIL_LENGTH + 1 := by
        omega
      have hle : ps.length - TRAIL_LENGTH + 1 ≤ ps.length := by omega
      rw [hk, List.drop_append_of_le_length hle]

/-- C4: every successful step appends the produced position to the history
with FIFO eviction; the bound `history.length ≤ 3000` is preserved by the
update; and after more than 3000 pushed positions the history holds exactly
the last 3000 of them — length 3000, the oldest retained point being the one
produced by (0-indexed) step number `step_count − 3000`. -/
theorem history_fifo_invariant (p : SimulationParams) (s s' : SimulationState)
    (hstep : stepPhysics p s = some s')
    (h : List Vector3) (x : Vector3) (hh : h.length ≤ TRAIL_LENGTH)
    (ps : List Vector3) (hps : TRAIL_LENGTH < ps.length) :
    s'.history = pushHistory s.history s'.position ∧
    (pushHistory h x).length ≤ TRAIL_LENGTH ∧
    List.foldl pushHistory [] ps = ps.drop (ps.length - TRAIL_LENGTH) ∧
    (List.foldl pushHistory [] ps).length = TRAIL_LENGTH := by
  refine ⟨?_, pushHistory_length_le h x hh, foldl_pushHistory ps, ?_⟩
  · unfold stepPhysics at hstep
    split at hstep
    · exact absurd hstep (by simp)
    · injection hstep with hstep
      subst hstep
      rfl
  · rw [foldl_pushHistory ps, List.length_drop]
    omega

/-- Witness for C4: a trivial zero-velocity step, and 3001 pushed points. -/
theorem history_fifo_invariant_witness :
    stepPhysics ⟨1, 0, ⟨0, 0, 0⟩, ⟨0, 0, 0⟩⟩ ⟨⟨0, 0, 0⟩, ⟨0, 0, 0⟩, [], 0⟩ =
      some ⟨⟨0, 0, 0⟩, ⟨0, 0, 0⟩, [⟨0, 0, 0⟩], 1/20⟩ ∧
    ([] : List Vector3).length ≤ TRAIL_LENGTH ∧
    TRAIL_LENGTH < (List.replicate 3001 (⟨0, 0, 0⟩ : Vector3)).length ∧
    ((⟨⟨0, 0, 0⟩, ⟨0, 0, 0⟩, [⟨0, 0, 0⟩], 1/20⟩ : SimulationState).history =
      pushHistory (⟨⟨0, 0, 0⟩, ⟨0, 0, 0⟩, [], 0⟩ : SimulationState).history
        (⟨⟨0, 0, 0⟩, ⟨0, 0, 0⟩, [⟨0, 0, 0⟩], 1/20⟩ :
          SimulationState).position ∧
      (pushHistory [] ⟨0, 0, 0⟩).length ≤ TRAIL_LENGTH ∧
      List.foldl pushHistory [] (List.replicate 3001 (⟨0, 0, 0⟩ : Vector3)) =
        (List.replicate 3001 (⟨0, 0, 0⟩ : Vector3)).drop
          ((List.replicate 3001 (⟨0, 0, 0⟩ : Vector3)).length - TRAIL_LENGTH) ∧
      (List.foldl pushHistory []
        (List.replicate 3001 (⟨0, 0, 0⟩ : Vector3))).length = TRAIL_LENGTH) :=
  ⟨by with_unfolding_all decide, by with_unfolding_all decide,
    by rw [List.length_replicate]; decide,
    history_fifo_invariant ⟨1, 0, ⟨0, 0, 0⟩, ⟨0, 0, 0⟩⟩
      ⟨⟨0, 0, 0⟩, ⟨0, 0, 0⟩, [], 0⟩ ⟨⟨0, 0, 0⟩, ⟨0, 0, 0⟩, [⟨0, 0, 0⟩], 1/20⟩
      (by with_unfolding_all decide) [] ⟨0, 0, 0⟩
      (by with_unfolding_all decide)
      (List.replicate 3001 (⟨0, 0, 0⟩ : Vector3))
      (by rw [List.length_replicate]; decide)⟩

/-! ## C1 — the step is exactly the spec's four-stage RK4 scheme -/

/-- C1: for every state with in-bounds position and params with positive
mass, `stepPhysics` evaluates the acceleration `a(v) = (q/m)(v × B)` at the
four stage points `v`, `v + k1v/2`, `v + k2v/2`, `v + k3v` (with
`kiv = ai·dt`, `kir = vi·dt`, `dt = 0.05`) and returns
`v' = v + (k1v + 2k2v + 2k3v + k4v)/6`,
`r' = r + (k1r + 2k2r + 2k3r + k4r)/6` and `time' = time + dt`
(`rk4SpecNext` is that four-stage scheme written as the spec words it). -/
theorem stepPhysics_rk4_correct (p : SimulationParams) (s : SimulationState)
    (hin : inBounds s.position) (hm : 0 < p.mass) :
    (∀ u, accel p u = lorentzAccel p u) ∧
    ∃ s', stepPhysics p s = some s' ∧
      s'.velocity = (rk4SpecNext p s.position s.velocity).1 ∧
      s'.position = (rk4SpecNext p s.position s.velocity).2 ∧
      s'.history = pushHistory s.history s'.position ∧
      s'.time = s.time + DT := by
  have haccel : ∀ u, accel p u = lorentzAccel p u := by
    intro u
    refine Vector3.ext_comp ?_ ?_ ?_ <;>
      simp only [accel, lorentzAccel, cross, smul_x, smul_y, smul_z] <;> ring
  refine ⟨haccel, ?_⟩
  unfold stepPhysics
  rw [if_neg (not_out_of_inBounds hin)]
  refine ⟨_, rfl, ?_, ?_, rfl, rfl⟩
  · refine Vector3.ext_comp ?_ ?_ ?_ <;>
      simp only [rk4SpecNext, lorentzAccel, cross, accel, smul_x, smul_y,
        smul_z, add_x, add_y, add_z, div_x, div_y, div_z] <;> ring
  · refine Vector3.ext_comp ?_ ?_ ?_ <;>
      simp only [rk4SpecNext, lorentzAccel, cross, accel, smul_x, smul_y,
        smul_z, add_x, add_y, add_z, div_x, div_y, div_z] <;> ring

/-- Witness for C1 at the spec's example scenario
`mass = 2, charge = 1, velocity = (5,0,2), bField = (0,0,2)`. -/
theorem stepPhysics_rk4_correct_witness :
    inBounds (⟨0, 0, 0⟩ : Vector3) ∧ (0 : ℚ) < 2 ∧
    ((∀ u, accel ⟨2, 1, ⟨5, 0, 2⟩, ⟨0, 0, 2⟩⟩ u =
        lorentzAccel ⟨2, 1, ⟨5, 0, 2⟩, ⟨0, 0, 2⟩⟩ u) ∧
      ∃ s', stepPhysics ⟨2, 1, ⟨5, 0, 2⟩, ⟨0, 0, 2⟩⟩
          ⟨⟨0, 0, 0⟩, ⟨5, 0, 2⟩, [], 0⟩ = some s' ∧
        s'.velocity = (rk4SpecNext ⟨2, 1, ⟨5, 0, 2⟩, ⟨0, 0, 2⟩⟩ ⟨0, 0, 0⟩
          ⟨5, 0, 2⟩).1 ∧
        s'.position = (rk4SpecNext ⟨2, 1, ⟨5, 0, 2⟩, ⟨0, 0, 2⟩⟩ ⟨0, 0, 0⟩
          ⟨5, 0, 2⟩).2 ∧
        s'.history = pushHistory
          (⟨⟨0, 0, 0⟩, ⟨5, 0, 2⟩, [], 0⟩ : SimulationState).history
          s'.position ∧
        s'.time = (⟨⟨0, 0, 0⟩, ⟨5, 0, 2⟩, [], 0⟩ : SimulationState).time + DT) :=
  ⟨by with_unfolding_all decide, by norm_num,
    stepPhysics_rk4_correct ⟨2, 1, ⟨5, 0, 2⟩, ⟨0, 0, 2⟩⟩
      ⟨⟨0, 0, 0⟩, ⟨5, 0, 2⟩, [], 0⟩ (by with_unfolding_all decide)
      (by norm_num)⟩

/-! ## C6 — zero field or zero charge gives a straight line -/

theorem accel_eq_zero (p : SimulationParams)
    (hp : p.bField = ⟨0, 0, 0⟩ ∨ p.charge = 0) (u : Vector3) :
    accel p u = ⟨0, 0, 0⟩ := by
  rcases hp with h | h <;>
    refine Vector3.ext_comp ?_ ?_ ?_ <;> simp [accel, h]

set_option maxHeartbeats 1000000 in
theorem stepPhysics_free (p : SimulationParams)
    (ha : ∀ u, accel p u = ⟨0, 0, 0⟩) (s s' : SimulationState)
    (hstep : stepPhysics p s = some s') :
    s'.velocity = s.velocity ∧ s'.position = s.position + DT • s.velocity := by
  unfold stepPhysics at hstep
  split at hstep
  · exact absurd hstep (by simp)
  · simp only [ha] at hstep
    injection hstep with hstep
    subst hstep
    constructor
    · refine Vector3.ext_comp ?_ ?_ ?_ <;>
        simp only [smul_x, smul_y, smul_z, add_x, add_y, add_z] <;> ring
    · refine Vector3.ext_comp ?_ ?_ ?_ <;>
        simp only [smul_x, smul_y, smul_z, add_x, add_y, add_z] <;> ring

set_option maxHeartbeats 1000000 in
theorem runSteps_free (p : SimulationParams)
    (ha : ∀ u, accel p u = ⟨0, 0, 0⟩) :
    ∀ (n : ℕ) (s s' : SimulationState), runSteps p n s = some s' →
      s'.position = s.position + ((n : ℚ) * DT) • s.velocity ∧
      s'.velocity = s.velocity := by
  intro n
  induction n with
  | zero =>
    intro s s' h
    simp only [runSteps] at h
    injection h with h
    subst h
    constructor
    · refine Vector3.ext_comp ?_ ?_ ?_ <;>
        simp only [smul_x, smul_y, smul_z, add_x, add_y, add_z,
          Nat.cast_zero] <;> ring
    · rfl
  | succ n ih =>
    intro s s' h
    rcases hs : stepPhysics p s with _ | s1
    · rw [runSteps, hs] at h
      exact absurd h (by simp)
    · rw [runSteps, hs] at h
      obtain ⟨hv1, hp1⟩ := stepPhysics_free p ha s s1 hs
      obtain ⟨hpos, hvel⟩ := ih s1 s' h
      constructor
      · rw [hpos, hp1, hv1]
        refine Vector3.ext_comp ?_ ?_ ?_ <;>
          simp only [smul_x, smul_y, smul_z, add_x, add_y, add_z,
            Nat.cast_succ] <;> ring
      · rw [hvel, hv1]

/-- C6: when `bField = (0,0,0)` or `charge = 0`, every successful step
leaves the velocity exactly unchanged and advances the position by
`velocity · dt`; consequently, starting from the origin, after `n`
successful steps the position is `velocity · (n · 0.05)` — the trajectory
is exactly a straight line. -/
theorem zero_field_or_charge_straight_line (p : SimulationParams)
    (s s' : SimulationState) (n : ℕ) (v0 : Vector3) (s2 : SimulationState)
    (hp : p.bField = ⟨0, 0, 0⟩ ∨ p.charge = 0)
    (hstep : stepPhysics p s = some s')
    (hrun : runSteps p n ⟨⟨0, 0, 0⟩, v0, [], 0⟩ = some s2) :
    s'.velocity = s.velocity ∧ s'.position = s.position + DT • s.velocity ∧
    s2.position = ((n : ℚ) * DT) • v0 ∧ s2.velocity = v0 := by
  have ha := accel_eq_zero p hp
  obtain ⟨h1, h2⟩ := stepPhysics_free p ha s s' hstep
  obtain ⟨h3, h4⟩ := runSteps_free p ha n _ s2 hrun
  refine ⟨h1, h2, ?_, h4⟩
  rw [h3]
  refine Vector3.ext_comp ?_ ?_ ?_ <;>
    simp only [smul_x, smul_y, smul_z, add_x, add_y, add_z] <;> ring

/-- Witness for C6: zero field, velocity `(3,0,0)`, two steps from the
origin reach `(3/10, 0, 0) = (3,0,0) · (2 · 0.05)`. -/
theorem zero_field_or_charge_straight_line_witness :
    ((⟨1, 1, ⟨3, 0, 0⟩, ⟨0, 0, 0⟩⟩ : SimulationParams).bField = ⟨0, 0, 0⟩ ∨
      (⟨1, 1, ⟨3, 0, 0⟩, ⟨0, 0, 0⟩⟩ : SimulationParams).charge = 0) ∧
    stepPhysics ⟨1, 1, ⟨3, 0, 0⟩, ⟨0, 0, 0⟩⟩ ⟨⟨0, 0, 0⟩, ⟨3, 0, 0⟩, [], 0⟩ =
      some ⟨⟨3/20, 0, 0⟩, ⟨3, 0, 0⟩, [⟨3/20, 0, 0⟩], 1/20⟩ ∧
    runSteps ⟨1, 1, ⟨3, 0, 0⟩, ⟨0, 0, 0⟩⟩ 2 ⟨⟨0, 0, 0⟩, ⟨3, 0, 0⟩, [], 0⟩ =
      some ⟨⟨3/10, 0, 0⟩, ⟨3, 0, 0⟩,
        [⟨3/20, 0, 0⟩, ⟨3/10, 0, 0⟩], 1/10⟩ ∧
    ((⟨⟨3/20, 0, 0⟩, ⟨3, 0, 0⟩, [⟨3/20, 0, 0⟩], 1/20⟩ :
        SimulationState).velocity =
      (⟨⟨0, 0, 0⟩, ⟨3, 0, 0⟩, [], 0⟩ : SimulationState).velocity ∧
      (⟨⟨3/20, 0, 0⟩, ⟨3, 0, 0⟩, [⟨3/20, 0, 0⟩], 1/20⟩ :
          SimulationState).position =
        (⟨⟨0, 0, 0⟩, ⟨3, 0, 0⟩, [], 0⟩ : SimulationState).position +
          DT • (⟨⟨0, 0, 0⟩, ⟨3, 0, 0⟩, [], 0⟩ : SimulationState).velocity ∧
      (⟨⟨3/10, 0, 0⟩, ⟨3, 0, 0⟩, [⟨3/20, 0, 0⟩, ⟨3/10, 0, 0⟩], 1/10⟩ :
          SimulationState).position = (((2 : ℕ) : ℚ) * DT) • (⟨3, 0, 0⟩ : Vector3) ∧
      (⟨⟨3/10, 0, 0⟩, ⟨3, 0, 0⟩, [⟨3/20, 0, 0⟩, ⟨3/10, 0, 0⟩], 1/10⟩ :
          SimulationState).velocity = ⟨3, 0, 0⟩) :=
  ⟨Or.inl rfl, by with_unfolding_all decide, by with_unfolding_all decide,
    zero_field_or_charge_straight_line ⟨1, 1, ⟨3, 0, 0⟩, ⟨0, 0, 0⟩⟩
      ⟨⟨0, 0, 0⟩, ⟨3, 0, 0⟩, [], 0⟩
      ⟨⟨3/20, 0, 0⟩, ⟨3, 0, 0⟩, [⟨3/20, 0, 0⟩], 1/20⟩ 2 ⟨3, 0, 0⟩
      ⟨⟨3/10, 0, 0⟩, ⟨3, 0, 0⟩, [⟨3/20, 0, 0⟩, ⟨3/10, 0, 0⟩], 1/10⟩
      (Or.inl rfl) (by with_unfolding_all decide)
      (by with_unfolding_all decide)⟩

/-! ## C9 — zoom scales the centre offsets monotonically -/

/-- C9: for a fixed world point, fixed camera angles and fixed viewport,
each screen coordinate of `project`, measured as an offset from the
viewport centre, is a monotone function of the zoom alone (monotone
nondecreasing or nonincreasing according to the sign of the view
coordinate). -/
theorem project_zoom_monotone (pt : Vector3) (cY sY cP sP w h : ℚ) :
    ((Monotone fun z : ℚ => (project pt ⟨cY, sY, cP, sP, z⟩ w h).x - w / 2) ∨
      (Antitone fun z : ℚ =>
        (project pt ⟨cY, sY, cP, sP, z⟩ w h).x - w / 2)) ∧
    ((Monotone fun z : ℚ => (project pt ⟨cY, sY, cP, sP, z⟩ w h).y - h / 2) ∨
      (Antitone fun z : ℚ =>
        (project pt ⟨cY, sY, cP, sP, z⟩ w h).y - h / 2)) := by
  have hkx : ∀ z : ℚ, (project pt ⟨cY, sY, cP, sP, z⟩ w h).x - w / 2 =
      ((pt.x * cY - pt.y * sY) *
        (600 / max 1 (400 + ((pt.x * sY + pt.y * cY) * cP - pt.z * sP)))) * z
        - 100 := by
    intro z
    simp only [project]
    ring
  have hky : ∀ z : ℚ, (project pt ⟨cY, sY, cP, sP, z⟩ w h).y - h / 2 =
      (-((pt.x * sY + pt.y * cY) * sP + pt.z * cP) *
        (600 / max 1 (400 + ((pt.x * sY + pt.y * cY) * cP - pt.z * sP)))) *
        z := by
    intro z
    simp only [project]
    ring
  constructor
  · rcases le_total 0 ((pt.x * cY - pt.y * sY) *
        (600 / max 1 (400 + ((pt.x * sY + pt.y * cY) * cP - pt.z * sP)))) with
      hc | hc
    · left
      intro a b hab
      simp only [hkx]
      have := mul_le_mul_of_nonneg_left hab hc
      linarith
    · right
      intro a b hab
      simp only [hkx]
      have := mul_le_mul_of_nonpos_left hab hc
      linarith
  · rcases le_total 0 (-((pt.x * sY + pt.y * cY) * sP + pt.z * cP) *
        (600 / max 1 (400 + ((pt.x * sY + pt.y * cY) * cP - pt.z * sP)))) with
      hc | hc
    · left
      intro a b hab
      simp only [hky]
      exact mul_le_mul_of_nonneg_left hab hc
    · right
      intro a b hab
      simp only [hky]
      exact mul_le_mul_of_nonpos_left hab hc

/-! ## C7 — speed conservation across steps (corrected) -/

/-- The squared dimensionless rotation angle of one RK4 step for an
arbitrary uniform field: `θ² = (q/m)²·|B|²·dt²`.  (`θ²` is a rational even
when `|B|` itself is not, so the perpendicular-configuration analysis can be
stated for every field direction.) -/
def thetaSq (p : SimulationParams) : ℚ :=
  (p.charge / p.mass) ^ 2 * normSq p.bField * DT ^ 2

/-- The factor by which one RK4 step multiplies the squared speed of a
velocity perpendicular to the field, as a function of `θ²`:
`ρ = 1 − (θ²)³/72 + (θ²)⁴/576`, that is, `1 − θ⁶/72 + θ⁸/576`. -/
def rkRhoSq (t2 : ℚ) : ℚ := 1 - t2 ^ 3 / 72 + t2 ^ 4 / 576

theorem stepV_velocity (p : SimulationParams) (s s' : SimulationState)
    (hstep : stepPhysics p s = some s') :
    s'.velocity = stepV p s.velocity := by
  unfold stepPhysics at hstep
  split at hstep
  · exact absurd hstep (by simp)
  · injection hstep with hstep
    subst hstep
    rfl

theorem normSq_nonneg (w : Vector3) : 0 ≤ normSq w := by
  simp only [normSq]
  positivity

theorem dot_accel_self (p : SimulationParams) (w : Vector3) :
    dot w (accel p w) = 0 := by
  simp only [dot, accel]
  ring

theorem dot_accel_bField (p : SimulationParams) (w : Vector3) :
    dot (accel p w) p.bField = 0 := by
  simp only [dot, accel]
  ring

theorem normSq_accel (p : SimulationParams) (w : Vector3) :
    normSq (accel p w) = (p.charge / p.mass) ^ 2 *
      (normSq w * normSq p.bField - dot w p.bField ^ 2) := by
  simp only [normSq, dot, accel]
  ring

theorem accel_smul (p : SimulationParams) (c : ℚ) (w : Vector3) :
    accel p (c • w) = c • accel p w := by
  refine Vector3.ext_comp ?_ ?_ ?_ <;>
    simp only [accel, smul_x, smul_y, smul_z] <;> ring

theorem accel_accel (p : SimulationParams) (w : Vector3) :
    accel p (accel p w) =
      ((p.charge / p.mass) ^ 2 * dot w p.bField) • p.bField +
        (-((p.charge / p.mass) ^ 2 * normSq p.bField)) • w := by
  refine Vector3.ext_comp ?_ ?_ ?_ <;>
    simp only [accel, dot, normSq, add_x, add_y, add_z, smul_x, smul_y,
      smul_z] <;> ring

set_option maxHeartbeats 1000000 in
theorem stepV_expand (p : SimulationParams) (v : Vector3) :
    stepV p v = v + DT • accel p v +
      (DT ^ 2 / 2) • accel p (accel p v) +
      (DT ^ 3 / 6) • accel p (accel p (accel p v)) +
      (DT ^ 4 / 24) • accel p (accel p (accel p (accel p v))) := by
  refine Vector3.ext_comp ?_ ?_ ?_ <;>
    simp only [stepV, accel, DT, add_x, add_y, add_z, smul_x, smul_y,
      smul_z] <;> ring

set_option maxHeartbeats 1000000 in
theorem dot_stepV_bField (p : SimulationParams) (v : Vector3) :
    dot (stepV p v) p.bField = dot v p.bField := by
  simp only [stepV, accel, dot, DT]
  ring

/-- On the plane perpendicular to the field, one RK4 velocity update is the
linear combination `v ↦ c·v + dt·σ·a(v)` with `c = 1 − θ²/2 + θ⁴/24` and
`σ = 1 − θ²/6` — the degree-4 rotation approximation, for every field
direction. -/
theorem stepV_perp (p : SimulationParams) (v : Vector3)
    (hv : dot v p.bField = 0) :
    stepV p v = (1 - thetaSq p / 2 + thetaSq p ^ 2 / 24) • v +
      (DT * (1 - thetaSq p / 6)) • accel p v := by
  have h2 : accel p (accel p v) =
      (-((p.charge / p.mass) ^ 2 * normSq p.bField)) • v := by
    rw [accel_accel, hv]
    refine Vector3.ext_comp ?_ ?_ ?_ <;>
      simp only [add_x, add_y, add_z, smul_x, smul_y, smul_z] <;> ring
  have h3 : accel p (accel p (accel p v)) =
      (-((p.charge / p.mass) ^ 2 * normSq p.bField)) • accel p v := by
    rw [h2, accel_smul]
  have h4 : accel p (accel p (accel p (accel p v))) =
      (((p.charge / p.mass) ^ 2 * normSq p.bField) ^ 2) • v := by
    rw [h3, accel_smul, h2]
    refine Vector3.ext_comp ?_ ?_ ?_ <;>
      simp only [smul_x, smul_y, smul_z] <;> ring
  rw [stepV_expand, h4, h3, h2]
  refine Vector3.ext_comp ?_ ?_ ?_ <;>
    simp only [thetaSq, add_x, add_y, add_z, smul_x, smul_y, smul_z] <;>
    ring

theorem normSq_combo (a b : ℚ) (w u : Vector3) :
    normSq (a • w + b • u) =
      a ^ 2 * normSq w + 2 * a * b * dot w u + b ^ 2 * normSq u := by
  simp only [normSq, dot, add_x, add_y, add_z, smul_x, smul_y, smul_z]
  ring

/-- One RK4 step multiplies the squared speed of any velocity perpendicular
to the field by exactly `ρ(θ²)`. -/
theorem stepV_perp_normSq (p : SimulationParams) (v : Vector3)
    (hv : dot v p.bField = 0) :
    normSq (stepV p v) = rkRhoSq (thetaSq p) * normSq v := by
  rw [stepV_perp p v hv, normSq_combo, dot_accel_self, normSq_accel, hv]
  simp only [rkRhoSq, thetaSq]
  ring

theorem iterate_stepV_perp (p : SimulationParams) :
    ∀ (n : ℕ) (v : Vector3), dot v p.bField = 0 →
      dot ((stepV p)^[n] v) p.bField = 0 ∧
      normSq ((stepV p)^[n] v) = rkRhoSq (thetaSq p) ^ n * normSq v := by
  intro n
  induction n with
  | zero =>
    intro v hv
    exact ⟨hv, by simp⟩
  | succ n ih =>
    intro v hv
    rw [Function.iterate_succ_apply]
    obtain ⟨ih1, ih2⟩ := ih (stepV p v)
      (by rw [dot_stepV_bField]; exact hv)
    refine ⟨ih1, ?_⟩
    rw [ih2, stepV_perp_normSq p v hv]
    ring

theorem thetaSq_nonneg (p : SimulationParams) : 0 ≤ thetaSq p := by
  have hB := normSq_nonneg p.bField
  simp only [thetaSq]
  positivity

theorem rkRhoSq_bounds (t2 : ℚ) (h0 : 0 ≤ t2) (ht : t2 ≤ 9/100) :
    1 - 81/8000000 ≤ rkRhoSq t2 ∧ rkRhoSq t2 ≤ 1 := by
  have h3 : t2 ^ 3 ≤ 729/1000000 := by
    have := pow_le_pow_left₀ h0 ht 3
    calc t2 ^ 3 ≤ (9/100 : ℚ) ^ 3 := this
    _ ≤ 729/1000000 := by norm_num
  have h3nn : (0 : ℚ) ≤ t2 ^ 3 := by positivity
  have h4nn : (0 : ℚ) ≤ t2 ^ 4 := by positivity
  have h4 : t2 ^ 4 = t2 ^ 3 * t2 := by ring
  constructor
  · simp only [rkRhoSq]
    nlinarith
  · simp only [rkRhoSq]
    nlinarith

theorem rkRhoSq_pow_bound (t2 : ℚ) (h0 : 0 ≤ t2) (ht : t2 ≤ 9/100)
    (n : ℕ) (hn : n ≤ 1000) :
    (99/100 : ℚ) ^ 2 ≤ rkRhoSq t2 ^ n ∧ rkRhoSq t2 ^ n ≤ 1 := by
  obtain ⟨hlo, hhi⟩ := rkRhoSq_bounds t2 h0 ht
  have hr0 : (0 : ℚ) ≤ rkRhoSq t2 := by linarith
  constructor
  · have hb : (1 : ℚ) + n * (rkRhoSq t2 - 1) ≤ rkRhoSq t2 ^ n := by
      have hm2 : (-2 : ℚ) ≤ rkRhoSq t2 - 1 := by linarith
      have := one_add_mul_le_pow hm2 n
      calc (1 : ℚ) + n * (rkRhoSq t2 - 1) ≤ (1 + (rkRhoSq t2 - 1)) ^ n :=
        this
      _ = rkRhoSq t2 ^ n := by ring_nf
    have hcast : (n : ℚ) ≤ 1000 := by exact_mod_cast hn
    have hneg : rkRhoSq t2 - 1 ≤ 0 := by linarith
    have := mul_le_mul_of_nonpos_right hcast hneg
    nlinarith
  · exact pow_le_one₀ hr0 hhi

/-- Counterexample to C7 as stated: for the perpendicular configuration
`mass = 1/2, charge = 5, bField = (0,0,5), velocity = (1,0,0)` (velocity
perpendicular to the field, both nonzero), the squared speed after a single
step is `38081/147456 ≈ 0.258` — the speed drops below 51% of its initial
value in one step, far beyond any 1%-over-1000-steps tolerance, so
`|v(t)| = |v(0)|` fails. -/
theorem speed_not_conserved_counterexample :
    dot ⟨1, 0, 0⟩ ⟨0, 0, 5⟩ = 0 ∧
    stepPhysics ⟨1/2, 5, ⟨1, 0, 0⟩, ⟨0, 0, 5⟩⟩ ⟨⟨0, 0, 0⟩, ⟨1, 0, 0⟩, [], 0⟩ =
      some ⟨⟨-1/480, -23/768, 0⟩, ⟨-191/384, 5/48, 0⟩,
        [⟨-1/480, -23/768, 0⟩], 1/20⟩ ∧
    normSq ((⟨⟨-1/480, -23/768, 0⟩, ⟨-191/384, 5/48, 0⟩,
        [⟨-1/480, -23/768, 0⟩], 1/20⟩ : SimulationState).velocity) =
      38081/147456 ∧
    (38081/147456 : ℚ) < (99/100) ^ 2 * normSq ⟨1, 0, 0⟩ := by
  refine ⟨by norm_num [dot], ?_, by norm_num [normSq], by norm_num [normSq]⟩
  rw [stepPhysics, if_neg (by norm_num [BOUNDS_LIMIT])]
  norm_num [accel, pushHistory, DT, TRAIL_LENGTH, Vector3.mk.injEq,
    SimulationState.mk.injEq]

/-- C7 as amended: for every perpendicular configuration — velocity with
`dot(velocity, bField) = 0`, both nonzero, the field in any direction — one
RK4 step multiplies the squared speed by exactly
`ρ = 1 − (θ²)³/72 + (θ²)⁴/576` where `θ² = (q/m)²·|B|²·dt²`; when
`θ² ≤ 9/100` (that is, `|θ| ≤ 3/10`) the speed is conserved to within 1%
over any 1000 steps: `(0.99·|v(0)|)² ≤ |v(n)|² ≤ |v(0)|²` for all
`n ≤ 1000`.  (Exact conservation, and conservation for strong fields, fail
— see the counterexample.) -/
theorem speed_conserved_small_theta (p : SimulationParams) (v0 : Vector3)
    (n : ℕ) (hperp : dot v0 p.bField = 0) (hB : p.bField ≠ ⟨0, 0, 0⟩)
    (hv : v0 ≠ ⟨0, 0, 0⟩) (ht : thetaSq p ≤ 9/100) (hn : n ≤ 1000) :
    (∀ s s', stepPhysics p s = some s' → s'.velocity = stepV p s.velocity) ∧
    normSq (stepV p v0) = rkRhoSq (thetaSq p) * normSq v0 ∧
    (99/100 : ℚ) ^ 2 * normSq v0 ≤ normSq ((stepV p)^[n] v0) ∧
    normSq ((stepV p)^[n] v0) ≤ normSq v0 := by
  obtain ⟨hplane, hiter⟩ := iterate_stepV_perp p n v0 hperp
  obtain ⟨hlo, hhi⟩ := rkRhoSq_pow_bound (thetaSq p) (thetaSq_nonneg p) ht
    n hn
  have hS := normSq_nonneg v0
  refine ⟨fun s s' h => stepV_velocity p s s' h,
    stepV_perp_normSq p v0 hperp, ?_, ?_⟩
  · rw [hiter]
    exact mul_le_mul_of_nonneg_right hlo hS
  · rw [hiter]
    calc rkRhoSq (thetaSq p) ^ n * normSq v0 ≤ 1 * normSq v0 :=
      mul_le_mul_of_nonneg_right hhi hS
    _ = normSq v0 := one_mul _

/-- Witness for the amended C7 at a non-axis-aligned perpendicular
configuration: `mass = 2, charge = 1, bField = (1,1,0)`,
`velocity = (0,0,3)`, `θ² = 1/800`, over the full 1000 steps. -/
theorem speed_conserved_small_theta_witness :
    dot ⟨0, 0, 3⟩
      (⟨2, 1, ⟨0, 0, 3⟩, ⟨1, 1, 0⟩⟩ : SimulationParams).bField = 0 ∧
    ((⟨2, 1, ⟨0, 0, 3⟩, ⟨1, 1, 0⟩⟩ : SimulationParams).bField =
      ⟨0, 0, 0⟩) = False ∧
    ((⟨0, 0, 3⟩ : Vector3) = ⟨0, 0, 0⟩) = False ∧
    thetaSq ⟨2, 1, ⟨0, 0, 3⟩, ⟨1, 1, 0⟩⟩ ≤ 9/100 ∧
    ((∀ s s', stepPhysics ⟨2, 1, ⟨0, 0, 3⟩, ⟨1, 1, 0⟩⟩ s = some s' →
        s'.velocity = stepV ⟨2, 1, ⟨0, 0, 3⟩, ⟨1, 1, 0⟩⟩ s.velocity) ∧
      normSq (stepV ⟨2, 1, ⟨0, 0, 3⟩, ⟨1, 1, 0⟩⟩ ⟨0, 0, 3⟩) =
        rkRhoSq (thetaSq ⟨2, 1, ⟨0, 0, 3⟩, ⟨1, 1, 0⟩⟩) * normSq ⟨0, 0, 3⟩ ∧
      (99/100 : ℚ) ^ 2 * normSq ⟨0, 0, 3⟩ ≤
        normSq ((stepV ⟨2, 1, ⟨0, 0, 3⟩, ⟨1, 1, 0⟩⟩)^[1000] ⟨0, 0, 3⟩) ∧
      normSq ((stepV ⟨2, 1, ⟨0, 0, 3⟩, ⟨1, 1, 0⟩⟩)^[1000] ⟨0, 0, 3⟩) ≤
        normSq ⟨0, 0, 3⟩) :=
  ⟨by with_unfolding_all decide, by with_unfolding_all decide,
    by with_unfolding_all decide, by with_unfolding_all decide,
    speed_conserved_small_theta ⟨2, 1, ⟨0, 0, 3⟩, ⟨1, 1, 0⟩⟩ ⟨0, 0, 3⟩ 1000
      (by with_unfolding_all decide) (by with_unfolding_all decide)
      (by with_unfolding_all decide) (by with_unfolding_all decide)
      (by with_unfolding_all decide)⟩

/-! ## C8 — the label clip is exactly Liang–Barsky on the inset rectangle -/

theorem clipEdge_sat_neg (p q : ℚ) (hp : p < 0) (t : ℚ) :
    p * t ≤ q ↔ q / p ≤ t := by
  rw [div_le_iff_of_neg hp, mul_comm]

theorem clipEdge_sat_pos (p q : ℚ) (hp : 0 < p) (t : ℚ) :
    p * t ≤ q ↔ t ≤ q / p := by
  rw [le_div_iff₀ hp, mul_comm]

theorem clipEdge_none_iff (p q t0 t1 : ℚ) (h : t0 ≤ t1) :
    (clipEdge p q (t0, t1) = none ↔ ∀ t, t0 ≤ t → t ≤ t1 → ¬(p * t ≤ q)) := by
  unfold clipEdge
  rcases lt_trichotomy p 0 with hp | hp | hp
  · rw [if_neg (ne_of_lt hp), if_pos hp]
    by_cases h1 : t1 < q / p
    · rw [if_pos h1]
      refine iff_of_true rfl fun t ht0 ht1 hsat => ?_
      have := (clipEdge_sat_neg p q hp t).mp hsat
      linarith
    · rw [if_neg h1]
      have hsat1 : p * t1 ≤ q := (clipEdge_sat_neg p q hp t1).mpr (not_lt.mp h1)
      by_cases h2 : t0 < q / p
      · rw [if_pos h2]
        exact iff_of_false (by simp) fun hall => hall t1 h le_rfl hsat1
      · rw [if_neg h2]
        exact iff_of_false (by simp) fun hall => hall t1 h le_rfl hsat1
  · subst hp
    rw [if_pos rfl]
    by_cases hq : q < 0
    · rw [if_pos hq]
      refine iff_of_true rfl fun t _ _ hsat => ?_
      rw [zero_mul] at hsat
      linarith
    · rw [if_neg hq]
      refine iff_of_false (by simp) fun hall => hall t0 le_rfl h ?_
      rw [zero_mul]
      exact not_lt.mp hq
  · rw [if_neg (ne_of_gt hp), if_neg (not_lt.2 (le_of_lt hp))]
    by_cases h1 : q / p < t0
    · rw [if_pos h1]
      refine iff_of_true rfl fun t ht0 ht1 hsat => ?_
      have := (clipEdge_sat_pos p q hp t).mp hsat
      linarith
    · rw [if_neg h1]
      have hsat0 : p * t0 ≤ q := (clipEdge_sat_pos p q hp t0).mpr (not_lt.mp h1)
      by_cases h2 : q / p < t1
      · rw [if_pos h2]
        exact iff_of_false (by simp) fun hall => hall t0 le_rfl h hsat0
      · rw [if_neg h2]
        exact iff_of_false (by simp) fun hall => hall t0 le_rfl h hsat0

theorem clipEdge_some_spec (p q t0 t1 t0' t1' : ℚ) (h : t0 ≤ t1)
    (he : clipEdge p q (t0, t1) = some (t0', t1')) :
    t0' ≤ t1' ∧ ∀ t, (t0' ≤ t ∧ t ≤ t1') ↔ (t0 ≤ t ∧ t ≤ t1 ∧ p * t ≤ q) := by
  unfold clipEdge at he
  rcases lt_trichotomy p 0 with hp | hp | hp
  · rw [if_neg (ne_of_lt hp), if_pos hp] at he
    by_cases h1 : t1 < q / p
    · rw [if_pos h1] at he
      exact absurd he (by simp)
    · rw [if_neg h1] at he
      have hle : q / p ≤ t1 := not_lt.mp h1
      by_cases h2 : t0 < q / p
      · rw [if_pos h2] at he
        rw [Option.some.injEq, Prod.mk.injEq] at he
        obtain ⟨he1, he2⟩ := he
        subst he1
        subst he2
        refine ⟨hle, fun t => ?_⟩
        rw [clipEdge_sat_neg p q hp t]
        constructor
        · rintro ⟨hta, htb⟩
          exact ⟨le_trans (le_of_lt h2) hta, htb, hta⟩
        · rintro ⟨_, htb, htc⟩
          exact ⟨htc, htb⟩
      · rw [if_neg h2] at he
        rw [Option.some.injEq, Prod.mk.injEq] at he
        obtain ⟨he1, he2⟩ := he
        subst he1
        subst he2
        refine ⟨h, fun t => ?_⟩
        rw [clipEdge_sat_neg p q hp t]
        constructor
        · rintro ⟨hta, htb⟩
          exact ⟨hta, htb, le_trans (not_lt.mp h2) hta⟩
        · rintro ⟨hta, htb, _⟩
          exact ⟨hta, htb⟩
  · subst hp
    rw [if_pos rfl] at he
    by_cases hq : q < 0
    · rw [if_pos hq] at he
      exact absurd he (by simp)
    · rw [if_neg hq] at he
      rw [Option.some.injEq, Prod.mk.injEq] at he
      obtain ⟨he1, he2⟩ := he
      subst he1
      subst he2
      refine ⟨h, fun t => ?_⟩
      constructor
      · rintro ⟨hta, htb⟩
        refine ⟨hta, htb, ?_⟩
        rw [zero_mul]
        exact not_lt.mp hq
      · rintro ⟨hta, htb, _⟩
        exact ⟨hta, htb⟩
  · rw [if_neg (ne_of_gt hp), if_neg (not_lt.2 (le_of_lt hp))] at he
    by_cases h1 : q / p < t0
    · rw [if_pos h1] at he
      exact absurd he (by simp)
    · rw [if_neg h1] at he
      have hle : t0 ≤ q / p := not_lt.mp h1
      by_cases h2 : q / p < t1
      · rw [if_pos h2] at he
        rw [Option.some.injEq, Prod.mk.injEq] at he
        obtain ⟨he1, he2⟩ := he
        subst he1
        subst he2
        refine ⟨hle, fun t => ?_⟩
        rw [clipEdge_sat_pos p q hp t]
        constructor
        · rintro ⟨hta, htb⟩
          exact ⟨hta, le_trans htb (le_of_lt h2), htb⟩
        · rintro ⟨hta, _, htc⟩
          exact ⟨hta, htc⟩
      · rw [if_neg h2] at he
        rw [Option.some.injEq, Prod.mk.injEq] at he
        obtain ⟨he1, he2⟩ := he
        subst he1
        subst he2
        refine ⟨h, fun t => ?_⟩
        rw [clipEdge_sat_pos p q hp t]
        constructor
        · rintro ⟨hta, htb⟩
          exact ⟨hta, htb, le_trans htb (not_lt.mp h2)⟩
        · rintro ⟨hta, htb, _⟩
          exact ⟨hta, htb⟩

theorem clipEdges_spec (es : List (ℚ × ℚ)) :
    ∀ t0 t1 : ℚ, t0 ≤ t1 →
      (clipEdges es (t0, t1) = none ↔
        ∀ t, t0 ≤ t → t ≤ t1 → ¬(∀ e ∈ es, e.1 * t ≤ e.2)) ∧
      (∀ t0' t1', clipEdges es (t0, t1) = some (t0', t1') →
        t0' ≤ t1' ∧ ∀ t, (t0' ≤ t ∧ t ≤ t1') ↔
          (t0 ≤ t ∧ t ≤ t1 ∧ ∀ e ∈ es, e.1 * t ≤ e.2)) := by
  induction es with
  | nil =>
    intro t0 t1 h
    constructor
    · refine iff_of_false (by simp [clipEdges]) fun hall => ?_
      exact hall t0 le_rfl h (by simp)
    · intro t0' t1' he
      simp only [clipEdges, Option.some.injEq, Prod.mk.injEq] at he
      obtain ⟨he1, he2⟩ := he
      subst he1
      subst he2
      refine ⟨h, fun t => ?_⟩
      simp only [List.not_mem_nil, false_implies, implies_true, and_true]
  | cons e es ih =>
    intro t0 t1 h
    rcases hc : clipEdge e.1 e.2 (t0, t1) with _ | ⟨a, b⟩
    · have hempty := (clipEdge_none_iff e.1 e.2 t0 t1 h).mp hc
      have hred : clipEdges (e :: es) (t0, t1) = none := by
        simp only [clipEdges, hc]
      constructor
      · refine iff_of_true hred fun t ht0 ht1 hall => ?_
        exact hempty t ht0 ht1 (hall e (List.mem_cons_self e es))
      · intro t0' t1' he
        rw [hred] at he
        exact absurd he (by simp)
    · obtain ⟨hab, hmem⟩ := clipEdge_some_spec e.1 e.2 t0 t1 a b h hc
      obtain ⟨ihn, ihs⟩ := ih a b hab
      have hred : clipEdges (e :: es) (t0, t1) = clipEdges es (a, b) := by
        simp only [clipEdges, hc]
      constructor
      · rw [hred, ihn]
        constructor
        · intro hres t ht0 ht1 hall
          rw [List.forall_mem_cons] at hall
          have hm := (hmem t).mpr ⟨ht0, ht1, hall.1⟩
          exact hres t hm.1 hm.2 hall.2
        · intro hres t hta htb hall
          have hm := (hmem t).mp ⟨hta, htb⟩
          refine hres t hm.1 hm.2.1 ?_
          rw [List.forall_mem_cons]
          exact ⟨hm.2.2, hall⟩
      · intro t0' t1' he
        rw [hred] at he
        obtain ⟨h1, h2⟩ := ihs t0' t1' he
        refine ⟨h1, fun t => ?_⟩
        rw [h2 t, List.forall_mem_cons]
        constructor
        · rintro ⟨hta, htb, hes⟩
          have hm := (hmem t).mp ⟨hta, htb⟩
          exact ⟨hm.1, hm.2.1, hm.2.2, hes⟩
        · rintro ⟨ht0, ht1, hsate, hsates⟩
          have hm := (hmem t).mpr ⟨ht0, ht1, hsate⟩
          exact ⟨hm.1, hm.2, hsates⟩

theorem labelClip_spec (p0 p1 : Projected) (w h : ℚ) :
    (labelClip p0 p1 w h = none ↔ ∀ t, ¬labelSat p0 p1 w h t) ∧
    (∀ pt, labelClip p0 p1 w h = some pt →
      ∃ t, labelSat p0 p1 w h t ∧
        pt = (p0.x + t * (p1.x - p0.x), p0.y + t * (p1.y - p0.y)) ∧
        ∀ u, labelSat p0 p1 w h u → u ≤ t) := by
  obtain ⟨hn, hs⟩ := clipEdges_spec (labelEdges p0 p1 w h) 0 1 (by norm_num)
  rcases hc : clipEdges (labelEdges p0 p1 w h) (0, 1) with _ | ⟨t0, t1⟩
  · have hempty := hn.mp hc
    have hred : labelClip p0 p1 w h = none := by
      simp only [labelClip, hc]
    constructor
    · refine iff_of_true hred fun t hsat => ?_
      obtain ⟨h0, h1, hall⟩ := hsat
      exact hempty t h0 h1 hall
    · intro pt he
      rw [hred] at he
      exact absurd he (by simp)
  · obtain ⟨h01, hmem⟩ := hs t0 t1 hc
    have hred : labelClip p0 p1 w h =
        some (p0.x + t1 * (p1.x - p0.x), p0.y + t1 * (p1.y - p0.y)) := by
      simp only [labelClip, hc]
      rw [if_neg (not_lt.2 h01)]
    have hadm : labelSat p0 p1 w h t1 := by
      have hm := (hmem t1).mp ⟨h01, le_rfl⟩
      exact ⟨hm.1, hm.2.1, hm.2.2⟩
    constructor
    · rw [hred]
      exact iff_of_false (by simp) fun hall => hall t1 hadm
    · intro pt he
      rw [hred, Option.some.injEq] at he
      subst he
      refine ⟨t1, hadm, rfl, fun u hu => ?_⟩
      exact ((hmem u).mpr ⟨hu.1, hu.2.1, hu.2.2⟩).2

/-- C8: `getLabelPosition` returns `none` exactly when no parameter
`t ∈ [0, 1]` of the projected axis segment satisfies all four Liang–Barsky
edge constraints of the 25 px inset rectangle (an empty interval after all
four edges, including the degenerate edge-parallel failures); otherwise it
returns `p0 + t1·(p1 − p0)` where `t1` is the largest admissible parameter
— the rectangle intersection closest to the axis-tip direction. -/
theorem getLabelPosition_liang_barsky (o a : Vector3) (cam : Cam)
    (w h : ℚ) (pt : ℚ × ℚ)
    (hpt : getLabelPosition o a cam w h = some pt) :
    (∃ t, labelAdmissible o a cam w h t ∧
      pt = ((project o cam w h).x +
          t * ((project a cam w h).x - (project o cam w h).x),
        (project o cam w h).y +
          t * ((project a cam w h).y - (project o cam w h).y)) ∧
      ∀ u, labelAdmissible o a cam w h u → u ≤ t) ∧
    (∀ (o' a' : Vector3) (cam' : Cam) (w' h' : ℚ),
      getLabelPosition o' a' cam' w' h' = none ↔
        ∀ t, ¬labelAdmissible o' a' cam' w' h' t) := by
  constructor
  · exact (labelClip_spec (project o cam w h) (project a cam w h) w h).2 pt hpt
  · intro o' a' cam' w' h'
    exact (labelClip_spec (project o' cam' w' h') (project a' cam' w' h')
      w' h').1

/-- Witness for C8: a head-on camera (`cos = 1, sin = 0, zoom = 1`) on a
200×200 viewport; the x-axis label lands on the inset rectangle's right
edge at `(175, 100)`. -/
theorem getLabelPosition_liang_barsky_witness :
    getLabelPosition ⟨0, 0, 0⟩ ⟨100000, 0, 0⟩ ⟨1, 0, 1, 0, 1⟩ 200 200 =
      some (175, 100) ∧
    ((∃ t, labelAdmissible ⟨0, 0, 0⟩ ⟨100000, 0, 0⟩ ⟨1, 0, 1, 0, 1⟩ 200 200 t ∧
      (175, 100) = ((project ⟨0, 0, 0⟩ ⟨1, 0, 1, 0, 1⟩ 200 200).x +
          t * ((project ⟨100000, 0, 0⟩ ⟨1, 0, 1, 0, 1⟩ 200 200).x -
            (project ⟨0, 0, 0⟩ ⟨1, 0, 1, 0, 1⟩ 200 200).x),
        (project ⟨0, 0, 0⟩ ⟨1, 0, 1, 0, 1⟩ 200 200).y +
          t * ((project ⟨100000, 0, 0⟩ ⟨1, 0, 1, 0, 1⟩ 200 200).y -
            (project ⟨0, 0, 0⟩ ⟨1, 0, 1, 0, 1⟩ 200 200).y)) ∧
      ∀ u, labelAdmissible ⟨0, 0, 0⟩ ⟨100000, 0, 0⟩ ⟨1, 0, 1, 0, 1⟩ 200 200 u →
        u ≤ t) ∧
    (∀ (o' a' : Vector3) (cam' : Cam) (w' h' : ℚ),
      getLabelPosition o' a' cam' w' h' = none ↔
        ∀ t, ¬labelAdmissible o' a' cam' w' h' t)) :=
  ⟨by with_unfolding_all decide,
    getLabelPosition_liang_barsky ⟨0, 0, 0⟩ ⟨100000, 0, 0⟩ ⟨1, 0, 1, 0, 1⟩
      200 200 (175, 100) (by with_unfolding_all decide)⟩

end LorentzSim
